import Mathlib

/-!
Verification of the pydoll mouse-movement core (`pydoll/interactions/movement.py`
and `pydoll/interactions/mouse.py`).

The Python source is shallowly embedded below.  Numbers are modelled by real
numbers (exact arithmetic); the ambient random draws (`random.randint`,
`random.random`, `random.gauss`, random parameter selection) are modelled by
explicit draw streams supplied as arguments, so every theorem quantifies over
all possible random outcomes.  Fallible operations (list indexing that can
raise `IndexError`) return `Option`.

One claim is genuinely about double-precision evaluation (the binomial
coefficient computed by raw factorial division); for that claim only, a
faithful integer model of IEEE-754 binary64 rounding (round to nearest, ties
to even, 53-bit significand, values in the normal range ≥ 1 as arise there)
is given in natural-number arithmetic so that the kernel can evaluate it.
-/

namespace Pydoll

/-! ### Python primitives -/

/-- Python `int(x)` applied to a float: truncation toward zero. -/
noncomputable def pyInt (x : ℝ) : ℤ := if 0 ≤ x then ⌊x⌋ else ⌈x⌉

/-- Python list indexing `l[i]`: negative indices count from the end; an
index out of range raises `IndexError` (modelled by `none`). -/
def pyGet {α : Type*} (l : List α) (i : ℤ) : Option α :=
  let j := if i < 0 then i + l.length else i
  if 0 ≤ j then l.get? j.toNat else none

/-! ### Integer model of IEEE-754 binary64 rounding (for `_binomial`)

`movement.py` computes `math.factorial(n) / float(math.factorial(k) *
math.factorial(n - k))`: both integers are converted to doubles (rounding to
nearest, ties to even) and then divided (the quotient again correctly
rounded).  Every double arising in that computation is ≥ 1 and normal, hence
an integer multiple of 2^(-52); we represent such a double exactly by the
natural number `value * 2^52`. -/

/-- Fuelled binary logarithm: `log2Fuel fuel n` is `⌊log₂ n⌋` for `1 ≤ n ≤ 2 ^ fuel`
(structural recursion on the fuel so that the kernel can evaluate it). -/
def log2Fuel : ℕ → ℕ → ℕ
  | 0, _ => 0
  | f + 1, n => if n < 2 then 0 else log2Fuel f (n / 2) + 1

/-- `⌊log₂ n⌋` for `n ≥ 1` (and `0` for `n = 0`). -/
def natLog2 (n : ℕ) : ℕ := log2Fuel n n

/-- Round the rational `a / b` (with `b ≠ 0`) to the nearest integer,
ties to even. -/
def roundQuot (a b : ℕ) : ℕ :=
  let q := a / b
  let r := a % b
  if 2 * r < b then q
  else if b < 2 * r then q + 1
  else if q % 2 = 0 then q else q + 1

/-- CPython's conversion of a nonnegative `int` `x` to a double (rounding to
nearest, ties to even), returned scaled by `2^52`. -/
def flScaled (x : ℕ) : ℕ :=
  let l := natLog2 x
  if l ≤ 52 then x * 2 ^ 52
  else roundQuot x (2 ^ (l - 52)) * 2 ^ (l - 52) * 2 ^ 52

/-- Correctly rounded IEEE division of two doubles `≥ 1` with quotient `≥ 1`,
both arguments and the result scaled by `2^52`. -/
def divScaled (x y : ℕ) : ℕ :=
  let l := natLog2 (x / y)
  roundQuot (x * 2 ^ 52) (y * 2 ^ l) * 2 ^ l

/-- The double produced by `_binomial(n, k)` in `movement.py`
(raw factorial division evaluated in binary64), scaled by `2^52`. -/
def binomialFPScaled (n k : ℕ) : ℕ :=
  divScaled (flScaled (Nat.factorial n)) (flScaled (Nat.factorial k * Nat.factorial (n - k)))

/-- The rational value of the double produced by `_binomial(n, k)`. -/
def binomialFloat (n k : ℕ) : ℚ := (binomialFPScaled n k : ℚ) / 2 ^ 52

/-! ### `movement.py`: bezier curves -/

/-- `_binomial` of `movement.py` in exact arithmetic:
`math.factorial(n) / float(math.factorial(k) * math.factorial(n - k))`. -/
noncomputable def binomial (n k : ℕ) : ℝ :=
  (Nat.factorial n : ℝ) / ((Nat.factorial k * Nat.factorial (n - k) : ℕ) : ℝ)

/-- `_bernstein_polynomial_point` of `movement.py`. -/
noncomputable def bernstein_polynomial_point (t : ℝ) (i n : ℕ) : ℝ :=
  binomial n i * t ^ i * (1 - t) ^ (n - i)

/-- `_bernstein_polynomial` of `movement.py`: the returned closure `bernstein`,
with the `for i, point in enumerate(points)` accumulation loop embedded as a
fold over the enumerated list. -/
noncomputable def bernstein_polynomial (points : List (ℝ × ℝ)) (t : ℝ) : ℝ × ℝ :=
  points.enum.foldl
    (fun xy ip =>
      (xy.1 + ip.2.1 * bernstein_polynomial_point t ip.1 (points.length - 1),
       xy.2 + ip.2.2 * bernstein_polynomial_point t ip.1 (points.length - 1)))
    (0, 0)

/-! ### `movement.py`: easing catalog -/

/-- Modelled from the spec: `MouseMovement.EASING_MIDPOINT` lives in
`pydoll/constants.py`, which is outside the sources; it is the midpoint at
which the ease-in-out functions switch branches, required by the catalog's
`f(0)=0` / `f(1)=1` invariant to be the standard value `0.5`. -/
noncomputable def EASING_MIDPOINT : ℝ := 1 / 2

/-- `_ease_out_quad`. -/
noncomputable def ease_out_quad (t : ℝ) : ℝ := -t * (t - 2)

/-- `_ease_out_cubic` (the source shifts `t -= 1` first). -/
noncomputable def ease_out_cubic (t : ℝ) : ℝ :=
  let u := t - 1
  u * u * u + 1

/-- `_ease_out_quart`. -/
noncomputable def ease_out_quart (t : ℝ) : ℝ :=
  let u := t - 1; -(u * u * u * u - 1)

/-- `_ease_out_quint`. -/
noncomputable def ease_out_quint (t : ℝ) : ℝ :=
  let u := t - 1
  u * u * u * u * u + 1

/-- `_ease_out_sine`. -/
noncomputable def ease_out_sine (t : ℝ) : ℝ := Real.sin (t * Real.pi / 2)

/-- `_ease_out_expo`. -/
noncomputable def ease_out_expo (t : ℝ) : ℝ :=
  if t = 1 then 1 else 1 - (2 : ℝ) ^ (-10 * t)

/-- `_ease_out_circ`. -/
noncomputable def ease_out_circ (t : ℝ) : ℝ :=
  let u := t - 1
  Real.sqrt (1 - u * u)

/-- `_ease_in_out_cubic`. -/
noncomputable def ease_in_out_cubic (t : ℝ) : ℝ :=
  if t < EASING_MIDPOINT then 4 * t * t * t
  else
    let u := 2 * t - 2
    (u * u * u + 2) / 2

/-- `_ease_in_out_quart`. -/
noncomputable def ease_in_out_quart (t : ℝ) : ℝ :=
  if t < EASING_MIDPOINT then 8 * t * t * t * t
  else
    let u := t - 1; -(8 * u * u * u * u - 1)

/-- `_ease_in_out_quint`. -/
noncomputable def ease_in_out_quint (t : ℝ) : ℝ :=
  if t < EASING_MIDPOINT then 16 * t * t * t * t * t
  else
    let u := 2 * t - 2
    (u * u * u * u * u + 2) / 2

/-- `_ease_in_out_sine`. -/
noncomputable def ease_in_out_sine (t : ℝ) : ℝ := -(Real.cos (Real.pi * t) - 1) / 2

/-- `_ease_in_out_expo`. -/
noncomputable def ease_in_out_expo (t : ℝ) : ℝ :=
  if t = 0 then 0
  else if t = 1 then 1
  else if t < EASING_MIDPOINT then (2 : ℝ) ^ (20 * t - 10) / 2
  else (2 - (2 : ℝ) ^ (-20 * t + 10)) / 2

/-- `_ease_in_out_circ`. -/
noncomputable def ease_in_out_circ (t : ℝ) : ℝ :=
  if t < EASING_MIDPOINT then (1 - Real.sqrt (1 - 4 * t * t)) / 2
  else
    let u := -2 * t + 2
    (Real.sqrt (1 - u * u) + 1) / 2

/-- `_linear`. -/
noncomputable def linear (t : ℝ) : ℝ := t

/-- The closed catalog of easing functions defined in `movement.py`. -/
inductive EasingChoice : Type
  | outQuad | outCubic | outQuart | outQuint | outSine | outExpo | outCirc
  | inOutCubic | inOutQuart | inOutQuint | inOutSine | inOutExpo | inOutCirc
  | lin
  deriving DecidableEq

/-- The function named by a catalog member. -/
noncomputable def easingFun : EasingChoice → ℝ → ℝ
  | .outQuad => ease_out_quad
  | .outCubic => ease_out_cubic
  | .outQuart => ease_out_quart
  | .outQuint => ease_out_quint
  | .outSine => ease_out_sine
  | .outExpo => ease_out_expo
  | .outCirc => ease_out_circ
  | .inOutCubic => ease_in_out_cubic
  | .inOutQuart => ease_in_out_quart
  | .inOutQuint => ease_in_out_quint
  | .inOutSine => ease_in_out_sine
  | .inOutExpo => ease_in_out_expo
  | .inOutCirc => ease_in_out_circ
  | .lin => linear

/-- The weighted list `easing_functions` inside `_get_random_easing_function`;
a random pick is any member of this list. -/
def randomEasingChoices : List EasingChoice :=
  [.lin, .lin, .outSine, .outQuad, .outCubic, .inOutSine, .inOutCubic]

/-! ### `movement.py`: distance, knots, curve sampling, distortion, easing -/

/-- `calculate_distance`. -/
noncomputable def calculate_distance (x1 y1 x2 y2 : ℝ) : ℝ :=
  Real.sqrt ((x2 - x1) ^ 2 + (y2 - y1) ^ 2)

/-- The `left_boundary`/`right_boundary` pair computed by
`generate_internal_knots` (after the collapse fix-up `right = left + 1`). -/
noncomputable def knotBoundsX (from_point to_point : ℝ × ℝ) (offset_boundary_x : ℝ) : ℤ × ℤ :=
  let l := pyInt (min from_point.1 to_point.1 - offset_boundary_x)
  let r := pyInt (max from_point.1 to_point.1 + offset_boundary_x)
  (l, if l ≥ r then l + 1 else r)

/-- The `down_boundary`/`up_boundary` pair computed by
`generate_internal_knots` (after the collapse fix-up `up = down + 1`). -/
noncomputable def knotBoundsY (from_point to_point : ℝ × ℝ) (offset_boundary_y : ℝ) : ℤ × ℤ :=
  let d := pyInt (min from_point.2 to_point.2 - offset_boundary_y)
  let u := pyInt (max from_point.2 to_point.2 + offset_boundary_y)
  (d, if d ≥ u then d + 1 else u)

/-- `random.randint(a, b)` for `a ≤ b`: a uniform draw from `[a, b]`.  The
raw entropy is an arbitrary integer `u`; `a + u % (b - a + 1)` ranges exactly
over `[a, b]` as `u` does over `ℤ`, so quantifying over `u` quantifies over
every possible outcome. -/
def randint (a b : ℤ) (u : ℤ) : ℤ := a + u % (b - a + 1)

/-- `generate_internal_knots`; `rx j` / `ry j` are the raw entropy of the two
`random.randint` calls of iteration `j`. -/
noncomputable def generate_internal_knots (from_point to_point : ℝ × ℝ) (knots_count : ℕ)
    (offset_boundary_x offset_boundary_y : ℝ) (rx ry : ℕ → ℤ) : List (ℝ × ℝ) :=
  let bx := knotBoundsX from_point to_point offset_boundary_x
  let by' := knotBoundsY from_point to_point offset_boundary_y
  (List.range knots_count).map fun j =>
    ((randint bx.1 bx.2 (rx j) : ℝ), (randint by'.1 by'.2 (ry j) : ℝ))

/-- The `num_points` resolution computed by `generate_bezier_curve_points`. -/
noncomputable def bezierNumPoints (from_point to_point : ℝ × ℝ) : ℕ :=
  max (max (pyInt (from_point.1 - to_point.1)).natAbs
           (pyInt (from_point.2 - to_point.2)).natAbs) 2

/-- `generate_bezier_curve_points`. -/
noncomputable def generate_bezier_curve_points (from_point to_point : ℝ × ℝ)
    (internal_knots : List (ℝ × ℝ)) : List (ℝ × ℝ) :=
  let num_points := bezierNumPoints from_point to_point
  let control_points := from_point :: (internal_knots ++ [to_point])
  (List.range num_points).map fun i : ℕ =>
    bernstein_polynomial control_points ((i : ℝ) / ((num_points : ℝ) - 1))

/-- `apply_distortion`; `coin i` is the `random.random()` draw and `gauss i`
the `random.gauss(mean, stdev)` draw of loop iteration `i`.  An empty input
raises `IndexError` at `points[0]` (modelled by `none`). -/
noncomputable def apply_distortion (points : List (ℝ × ℝ))
    (distortion_mean distortion_stdev distortion_frequency : ℝ)
    (coin gauss : ℕ → ℝ) : Option (List (ℝ × ℝ)) :=
  let freq := if ¬(0 ≤ distortion_frequency ∧ distortion_frequency ≤ 1)
    then (1 : ℝ) / 2 else distortion_frequency
  match points with
  | [] => none
  | p0 :: rest =>
    some (p0 ::
      (rest.dropLast.enum.map fun jq =>
        if coin (jq.1 + 1) < freq then (jq.2.1, jq.2.2 + gauss (jq.1 + 1)) else jq.2)
      ++ [rest.getLastD p0])

/-- The source index `int(eased_progress * (len(points) - 1))` selected by
iteration `i` of `apply_easing` on an input of length `M` (the
`max(target_points, 2)` clamp applied first, as in the source). -/
noncomputable def easeIndex (M : ℕ) (f : ℝ → ℝ) (target_points : ℤ) (i : ℕ) : ℤ :=
  pyInt (f ((i : ℝ) / (((max target_points 2 : ℤ) : ℝ) - 1)) * ((M : ℝ) - 1))

/-- The `result.append(points[index])` loop of `apply_easing`: look every
index up in `points`, failing (as Python does) if any is out of range. -/
def selectPoints {α : Type*} (points : List α) : List ℤ → Option (List α)
  | [] => some []
  | i :: rest =>
    match pyGet points i, selectPoints points rest with
    | some p, some ps => some (p :: ps)
    | _, _ => none

/-- `apply_easing` with an explicitly supplied easing function (the `None`
default draws from `randomEasingChoices`, which the pipeline model passes
explicitly). -/
noncomputable def apply_easing (points : List (ℝ × ℝ)) (target_points : ℤ)
    (f : ℝ → ℝ) : Option (List (ℝ × ℝ)) :=
  selectPoints points
    ((List.range (max target_points 2).toNat).map (easeIndex points.length f target_points))

/-! ### `movement.py`: the full trajectory pipeline, and `mouse.py`

All ambient random draws made by one `move_to` call are collected in a
`RandomEnv`; a theorem quantifying over the environment holds for every
possible random outcome.  `MouseMovement.STEPS_PER_SECOND` lives in
`pydoll/constants.py`, outside the sources, so it is carried as an
environment field rather than a fixed number. -/

structure RandomEnv : Type where
  /-- draws of the `random.randint` calls for knot x coordinates -/
  rx : ℕ → ℤ
  /-- draws of the `random.randint` calls for knot y coordinates -/
  ry : ℕ → ℤ
  /-- draws of `random.random()` in `apply_distortion` -/
  coin : ℕ → ℝ
  /-- draws of `random.gauss` in `apply_distortion` -/
  gauss : ℕ → ℝ
  /-- the catalog member picked by `_get_random_easing_function` -/
  easing : EasingChoice
  /-- the draw of `_get_random_knots_count` -/
  knotsCount : ℕ
  /-- the draw of `_get_random_target_points` -/
  targetPoints : ℤ
  /-- the x draw of `_get_random_offset_boundary` -/
  offX : ℝ
  /-- the y draw of `_get_random_offset_boundary` -/
  offY : ℝ
  /-- the mean draw of `_get_random_distortion_params` -/
  dMean : ℝ
  /-- the stdev draw of `_get_random_distortion_params` -/
  dStdev : ℝ
  /-- the frequency draw of `_get_random_distortion_params` -/
  dFreq : ℝ
  /-- the draw of `_generate_random_duration` -/
  randDuration : ℝ
  /-- Modelled from the spec: `MouseMovement.STEPS_PER_SECOND` from
  `pydoll/constants.py` (outside the sources); kept abstract. -/
  stepsPerSecond : ℝ

/-- The `if offset_boundary_x is None or offset_boundary_y is None` branch of
`generate_human_mouse_trajectory`: one `None` in the pair replaces both by
randomizer draws. -/
noncomputable def resolvedOffsets (env : RandomEnv)
    (offset_boundary_x offset_boundary_y : Option ℝ) : ℝ × ℝ :=
  match offset_boundary_x, offset_boundary_y with
  | some ox, some oy => (ox, oy)
  | _, _ => (env.offX, env.offY)

/-- The `if distortion_mean is None or ... or distortion_frequency is None`
branch of `generate_human_mouse_trajectory`: one `None` in the triple
replaces all three by randomizer draws. -/
noncomputable def resolvedDistortion (env : RandomEnv)
    (distortion_mean distortion_stdev distortion_frequency : Option ℝ) : ℝ × ℝ × ℝ :=
  match distortion_mean, distortion_stdev, distortion_frequency with
  | some m, some s, some f => (m, s, f)
  | _, _, _ => (env.dMean, env.dStdev, env.dFreq)

/-- `generate_human_mouse_trajectory`: `None` arguments are replaced by the
randomizer draws exactly as in the source; the easing function is always the
random catalog pick (`easing_func=None` at the call site). -/
noncomputable def generate_human_mouse_trajectory (env : RandomEnv)
    (from_point to_point : ℝ × ℝ) (knots_count : Option ℕ)
    (distortion_mean distortion_stdev distortion_frequency : Option ℝ)
    (target_points : Option ℤ) (offset_boundary_x offset_boundary_y : Option ℝ) :
    Option (List (ℝ × ℝ)) :=
  let kc := knots_count.getD env.knotsCount
  let tgt := target_points.getD env.targetPoints
  let ob := resolvedOffsets env offset_boundary_x offset_boundary_y
  let dp := resolvedDistortion env distortion_mean distortion_stdev distortion_frequency
  let internal_knots := generate_internal_knots from_point to_point kc ob.1 ob.2 env.rx env.ry
  let points := generate_bezier_curve_points from_point to_point internal_knots
  (apply_distortion points dp.1 dp.2.1 dp.2.2 env.coin env.gauss).bind
    fun distorted => apply_easing distorted tgt (easingFun env.easing)

/-- The per-segment Euclidean lengths computed by
`MouseAPI._execute_trajectory` (one per consecutive pair). -/
noncomputable def segmentLengths (trajectory : List (ℝ × ℝ)) : List ℝ :=
  (trajectory.zip trajectory.tail).map fun pq =>
    calculate_distance pq.1.1 pq.1.2 pq.2.1 pq.2.2

/-- `MouseAPI._execute_trajectory` as the schedule it produces: the list of
`(delay slept before the dispatch, dispatched point)` pairs, first point at
delay `0`, later points delayed proportionally to segment length (or by the
uniform fallback when the total arc length is not positive). -/
noncomputable def execute_trajectory (trajectory : List (ℝ × ℝ)) (duration : ℝ) :
    List (ℝ × (ℝ × ℝ)) :=
  match trajectory with
  | [] => []
  | p0 :: _ =>
    let total := (segmentLengths trajectory).sum
    (0, p0) ::
      ((segmentLengths trajectory).zip trajectory.tail).map fun dp =>
        (if total > 0 then dp.1 / total * duration
         else duration / (max (trajectory.length - 1) 1 : ℕ), dp.2)

/-- The cursor position of a freshly constructed `MouseAPI`
(`self._current_x = self._current_y = 0.0`). -/
noncomputable def initialCursor : ℝ × ℝ := (0, 0)

/-- `MouseAPI.get_position`. -/
noncomputable def get_position (st : ℝ × ℝ) : ℝ × ℝ := st

/-- `MouseAPI.move_to`, returning the final cursor state together with the
coordinates of the `mouseMoved` events dispatched, in order (`none` would
model an uncaught exception; it never occurs). -/
noncomputable def move_to (env : RandomEnv) (humanize : Bool) (st : ℝ × ℝ)
    (x y : ℝ) (duration : Option ℝ) : Option ((ℝ × ℝ) × List (ℝ × ℝ)) :=
  if calculate_distance st.1 st.2 x y < 1 then some (st, [])
  else if ¬humanize then some ((x, y), [(x, y)])
  else
    let dur := duration.getD env.randDuration
    let target_points := max (pyInt (dur * env.stepsPerSecond)) 2
    match generate_human_mouse_trajectory env st (x, y) none none none none
        (some target_points) none none with
    | none => none
    | some trajectory => some ((x, y), (execute_trajectory trajectory dur).map Prod.snd)

/-- `MouseAPI.move_by`. -/
noncomputable def move_by (env : RandomEnv) (humanize : Bool) (st : ℝ × ℝ)
    (delta_x delta_y : ℝ) (duration : Option ℝ) : Option ((ℝ × ℝ) × List (ℝ × ℝ)) :=
  move_to env humanize st (st.1 + delta_x) (st.2 + delta_y) duration

/-- A concrete environment (used to instantiate theorems at specific
inputs). -/
noncomputable def defaultEnv : RandomEnv :=
  ⟨fun _ => 0, fun _ => 0, fun _ => 1, fun _ => 0, .lin, 1, 2, 0, 0, 0, 0, 0, 1, 1⟩

/-! ### Lemmas: the easing catalog invariant `f(0) = 0`, `f(1) = 1`,
`f : [0,1] → [0,1]` -/

theorem easingFun_zero (e : EasingChoice) : easingFun e 0 = 0 := by
  cases e with
  | outQuad => norm_num [easingFun, ease_out_quad]
  | outCubic => norm_num [easingFun, ease_out_cubic]
  | outQuart => norm_num [easingFun, ease_out_quart]
  | outQuint => norm_num [easingFun, ease_out_quint]
  | outSine => simp [easingFun, ease_out_sine]
  | outExpo => norm_num [easingFun, ease_out_expo, Real.rpow_zero]
  | outCirc => norm_num [easingFun, ease_out_circ]
  | inOutCubic => norm_num [easingFun, ease_in_out_cubic, EASING_MIDPOINT]
  | inOutQuart => norm_num [easingFun, ease_in_out_quart, EASING_MIDPOINT]
  | inOutQuint => norm_num [easingFun, ease_in_out_quint, EASING_MIDPOINT]
  | inOutSine => simp [easingFun, ease_in_out_sine]
  | inOutExpo => simp [easingFun, ease_in_out_expo]
  | inOutCirc => norm_num [easingFun, ease_in_out_circ, EASING_MIDPOINT]
  | lin => rfl

theorem easingFun_one (e : EasingChoice) : easingFun e 1 = 1 := by
  cases e with
  | outQuad => norm_num [easingFun, ease_out_quad]
  | outCubic => norm_num [easingFun, ease_out_cubic]
  | outQuart => norm_num [easingFun, ease_out_quart]
  | outQuint => norm_num [easingFun, ease_out_quint]
  | outSine => simp [easingFun, ease_out_sine, Real.sin_pi_div_two]
  | outExpo => simp [easingFun, ease_out_expo]
  | outCirc => norm_num [easingFun, ease_out_circ]
  | inOutCubic => norm_num [easingFun, ease_in_out_cubic, EASING_MIDPOINT]
  | inOutQuart => norm_num [easingFun, ease_in_out_quart, EASING_MIDPOINT]
  | inOutQuint => norm_num [easingFun, ease_in_out_quint, EASING_MIDPOINT]
  | inOutSine => norm_num [easingFun, ease_in_out_sine, Real.cos_pi]
  | inOutExpo => simp [easingFun, ease_in_out_expo]
  | inOutCirc => norm_num [easingFun, ease_in_out_circ, EASING_MIDPOINT]
  | lin => rfl

theorem easingFun_nonneg (e : EasingChoice) {t : ℝ} (h0 : 0 ≤ t) (h1 : t ≤ 1) :
    0 ≤ easingFun e t := by
  cases e with
  | outQuad => simp only [easingFun, ease_out_quad]; nlinarith
  | outCubic =>
    simp only [easingFun, ease_out_cubic]
    nlinarith [sq_nonneg (t - 1), mul_nonneg h0 (sq_nonneg (t - 1)), sq_nonneg t]
  | outQuart =>
    simp only [easingFun, ease_out_quart]
    nlinarith [mul_nonneg (by nlinarith : (0 : ℝ) ≤ 1 - (t - 1) * (t - 1))
      (by nlinarith [sq_nonneg (t - 1)] : (0 : ℝ) ≤ (t - 1) * (t - 1) + 1)]
  | outQuint =>
    simp only [easingFun, ease_out_quint]
    have hq : (0 : ℝ) ≤ (t - 1) * (t - 1) * (t - 1) * (t - 1)
        - (t - 1) * (t - 1) * (t - 1) + (t - 1) * (t - 1) - (t - 1) + 1 := by
      nlinarith [sq_nonneg ((t - 1) * (t - 1)), sq_nonneg (t - 1),
        mul_nonneg (by linarith : (0 : ℝ) ≤ 1 - t) (sq_nonneg (t - 1))]
    nlinarith [mul_nonneg h0 hq]
  | outSine =>
    simp only [easingFun, ease_out_sine]
    apply Real.sin_nonneg_of_nonneg_of_le_pi
    · positivity
    · nlinarith [Real.pi_pos]
  | outExpo =>
    simp only [easingFun, ease_out_expo]
    split
    · norm_num
    · have : (2 : ℝ) ^ (-10 * t) ≤ 1 :=
        Real.rpow_le_one_of_one_le_of_nonpos (by norm_num) (by linarith)
      linarith
  | outCirc => simp only [easingFun, ease_out_circ]; positivity
  | inOutCubic =>
    simp only [easingFun, ease_in_out_cubic, EASING_MIDPOINT]
    split
    · nlinarith [mul_nonneg (mul_nonneg h0 h0) h0]
    · nlinarith [sq_nonneg (2 * t - 2), mul_nonneg h0 (sq_nonneg (2 * t - 2)), sq_nonneg t]
  | inOutQuart =>
    simp only [easingFun, ease_in_out_quart, EASING_MIDPOINT]
    split
    · nlinarith [mul_nonneg (mul_nonneg h0 h0) h0]
    · rename_i h2
      push_neg at h2
      have hu2 : (t - 1) * (t - 1) ≤ 1 / 4 := by nlinarith
      nlinarith [mul_le_mul hu2 hu2 (mul_self_nonneg (t - 1)) (by norm_num)]
  | inOutQuint =>
    simp only [easingFun, ease_in_out_quint, EASING_MIDPOINT]
    split
    · nlinarith [mul_nonneg (mul_nonneg (mul_nonneg h0 h0) h0) h0]
    · rename_i h2
      push_neg at h2
      have hq : (0 : ℝ) ≤ (2 * t - 2) * (2 * t - 2) * (2 * t - 2) * (2 * t - 2)
          - (2 * t - 2) * (2 * t - 2) * (2 * t - 2) + (2 * t - 2) * (2 * t - 2)
          - (2 * t - 2) + 1 := by
        nlinarith [sq_nonneg ((2 * t - 2) * (2 * t - 2)), sq_nonneg (2 * t - 2),
          mul_nonneg (by linarith : (0 : ℝ) ≤ 2 - 2 * t) (sq_nonneg (2 * t - 2))]
      nlinarith [mul_nonneg (by linarith : (0 : ℝ) ≤ 2 * t - 1) hq]
  | inOutSine =>
    simp only [easingFun, ease_in_out_sine]
    nlinarith [Real.cos_le_one (Real.pi * t)]
  | inOutExpo =>
    simp only [easingFun, ease_in_out_expo]
    split
    · norm_num
    split
    · norm_num
    split
    · positivity
    · have : (2 : ℝ) ^ (-20 * t + 10) ≤ 1 := by
        apply Real.rpow_le_one_of_one_le_of_nonpos (by norm_num)
        rename_i h2 h3 h4
        push_neg at h4
        simp only [EASING_MIDPOINT] at h4
        linarith
      linarith
  | inOutCirc =>
    simp only [easingFun, ease_in_out_circ, EASING_MIDPOINT]
    split
    · have : Real.sqrt (1 - 4 * t * t) ≤ 1 := Real.sqrt_le_one.2 (by nlinarith)
      linarith
    · positivity
  | lin => exact h0

theorem easingFun_le_one (e : EasingChoice) {t : ℝ} (h0 : 0 ≤ t) (h1 : t ≤ 1) :
    easingFun e t ≤ 1 := by
  cases e with
  | outQuad => simp only [easingFun, ease_out_quad]; nlinarith [sq_nonneg (t - 1)]
  | outCubic =>
    simp only [easingFun, ease_out_cubic]
    nlinarith [mul_nonneg (sq_nonneg (t - 1)) (by linarith : (0 : ℝ) ≤ 1 - t)]
  | outQuart =>
    simp only [easingFun, ease_out_quart]
    nlinarith [sq_nonneg ((t - 1) * (t - 1))]
  | outQuint =>
    simp only [easingFun, ease_out_quint]
    nlinarith [mul_nonneg (sq_nonneg ((t - 1) * (t - 1))) (by linarith : (0 : ℝ) ≤ 1 - t),
      sq_nonneg ((t - 1) * (t - 1))]
  | outSine => exact Real.sin_le_one _
  | outExpo =>
    simp only [easingFun, ease_out_expo]
    split
    · norm_num
    · have : (0 : ℝ) < (2 : ℝ) ^ (-10 * t) := Real.rpow_pos_of_pos (by norm_num) _
      linarith
  | outCirc =>
    simp only [easingFun, ease_out_circ]
    exact Real.sqrt_le_one.2 (by nlinarith [sq_nonneg (t - 1)])
  | inOutCubic =>
    simp only [easingFun, ease_in_out_cubic, EASING_MIDPOINT]
    split
    · rename_i h2
      nlinarith [sq_nonneg t, mul_nonneg (mul_nonneg h0 h0) h0]
    · nlinarith [mul_nonneg (sq_nonneg (2 * t - 2)) (by linarith : (0 : ℝ) ≤ 2 - 2 * t)]
  | inOutQuart =>
    simp only [easingFun, ease_in_out_quart, EASING_MIDPOINT]
    split
    · rename_i h2
      have ht2 : t * t ≤ 1 / 4 := by nlinarith
      nlinarith [mul_le_mul ht2 ht2 (mul_self_nonneg t) (by norm_num)]
    · nlinarith [sq_nonneg ((t - 1) * (t - 1))]
  | inOutQuint =>
    simp only [easingFun, ease_in_out_quint, EASING_MIDPOINT]
    split
    · rename_i h2
      nlinarith [sq_nonneg t, sq_nonneg (t * t), mul_nonneg (mul_nonneg h0 h0) h0,
        mul_nonneg (mul_nonneg (mul_nonneg h0 h0) h0) h0]
    · nlinarith [mul_nonneg (sq_nonneg ((2 * t - 2) * (2 * t - 2)))
        (by linarith : (0 : ℝ) ≤ 2 - 2 * t), sq_nonneg ((2 * t - 2) * (2 * t - 2))]
  | inOutSine =>
    simp only [easingFun, ease_in_out_sine]
    nlinarith [Real.neg_one_le_cos (Real.pi * t)]
  | inOutExpo =>
    simp only [easingFun, ease_in_out_expo]
    split
    · norm_num
    split
    · norm_num
    split
    · rename_i h2 h3 h4
      simp only [EASING_MIDPOINT] at h4
      have : (2 : ℝ) ^ (20 * t - 10) ≤ 1 :=
        Real.rpow_le_one_of_one_le_of_nonpos (by norm_num) (by linarith)
      linarith
    · have : (0 : ℝ) < (2 : ℝ) ^ (-20 * t + 10) := Real.rpow_pos_of_pos (by norm_num) _
      linarith
  | inOutCirc =>
    simp only [easingFun, ease_in_out_circ, EASING_MIDPOINT]
    split
    · have : (0 : ℝ) ≤ Real.sqrt (1 - 4 * t * t) := Real.sqrt_nonneg _
      linarith
    · have : Real.sqrt (1 - (-2 * t + 2) * (-2 * t + 2)) ≤ 1 :=
        Real.sqrt_le_one.2 (by nlinarith [sq_nonneg (t - 1)])
      linarith
  | lin => exact h1

/-! ### Lemmas: `pyInt`, `pyGet`, `selectPoints` -/

theorem pyInt_of_nonneg {x : ℝ} (h : 0 ≤ x) : pyInt x = ⌊x⌋ := if_pos h

theorem pyInt_intCast (z : ℤ) : pyInt (z : ℝ) = z := by
  unfold pyInt
  split <;> simp

theorem pyInt_nonneg {x : ℝ} (h : 0 ≤ x) : 0 ≤ pyInt x := by
  rw [pyInt_of_nonneg h]
  exact Int.floor_nonneg.2 h

theorem pyInt_le_of_le {x : ℝ} {m : ℤ} (h0 : 0 ≤ x) (h : x ≤ (m : ℝ)) : pyInt x ≤ m := by
  rw [pyInt_of_nonneg h0]
  exact (Int.floor_mono h).trans_eq (Int.floor_intCast m)

theorem pyGet_of_valid {α : Type*} (l : List α) {i : ℤ} (h0 : 0 ≤ i)
    (h1 : i.toNat < l.length) : pyGet l i = l.get? i.toNat := by
  unfold pyGet
  rw [if_neg (by omega : ¬i < 0), if_pos h0]

theorem selectPoints_eq_map {α : Type*} [Inhabited α] (points : List α) (idxs : List ℤ)
    (h : ∀ i ∈ idxs, 0 ≤ i ∧ i.toNat < points.length) :
    selectPoints points idxs = some (idxs.map fun i => points.getD i.toNat default) := by
  induction idxs with
  | nil => rfl
  | cons i rest ih =>
    have hi := h i (List.mem_cons_self i rest)
    have hrest := ih fun j hj => h j (List.mem_cons_of_mem i hj)
    have hget : pyGet points i = some (points.getD i.toNat default) := by
      simp [pyGet_of_valid points hi.1 hi.2, List.getD_eq_get?,
        List.getElem?_eq_getElem hi.2]
    simp only [selectPoints, hget, hrest, List.map_cons]

/-! ### Lemmas: the easing / resampling stage -/

theorem easeIndex_mem {M : ℕ} (hM : 1 ≤ M) {f : ℝ → ℝ}
    (hf : ∀ t : ℝ, 0 ≤ t → t ≤ 1 → 0 ≤ f t ∧ f t ≤ 1)
    (tp : ℤ) {i : ℕ} (hi : i < (max tp 2).toNat) :
    0 ≤ easeIndex M f tp i ∧ easeIndex M f tp i ≤ (M : ℤ) - 1 := by
  set N : ℤ := max tp 2 with hN
  have hN2 : (2 : ℤ) ≤ N := le_max_right _ _
  have hNR : (1 : ℝ) ≤ (N : ℝ) - 1 := by
    have h2 : (2 : ℝ) ≤ (N : ℝ) := by exact_mod_cast hN2
    linarith
  have hiN : (i : ℝ) ≤ (N : ℝ) - 1 := by
    have hle : (i : ℤ) ≤ N - 1 := by omega
    have hle' : ((i : ℤ) : ℝ) ≤ ((N - 1 : ℤ) : ℝ) := by exact_mod_cast hle
    push_cast at hle' ⊢
    linarith
  have hprog0 : 0 ≤ (i : ℝ) / ((N : ℝ) - 1) := by positivity
  have hprog1 : (i : ℝ) / ((N : ℝ) - 1) ≤ 1 := by
    rw [div_le_one (by linarith)]
    exact hiN
  obtain ⟨hf0, hf1⟩ := hf _ hprog0 hprog1
  have hM1 : (0 : ℝ) ≤ (M : ℝ) - 1 := by
    have : (1 : ℝ) ≤ (M : ℝ) := by exact_mod_cast hM
    linarith
  have harg0 : 0 ≤ f ((i : ℝ) / ((N : ℝ) - 1)) * ((M : ℝ) - 1) := mul_nonneg hf0 hM1
  have harg1 : f ((i : ℝ) / ((N : ℝ) - 1)) * ((M : ℝ) - 1) ≤ ((M : ℤ) - 1 : ℤ) := by
    push_cast
    nlinarith
  exact ⟨pyInt_nonneg harg0, pyInt_le_of_le harg0 harg1⟩

/-- The value selected at position `i` by `apply_easing`, when every easing
value stays in `[0, 1]`: the stage succeeds and position `i` holds the input
point at index `easeIndex`. -/
theorem apply_easing_eq_map (points : List (ℝ × ℝ)) (hM : 1 ≤ points.length)
    (tp : ℤ) {f : ℝ → ℝ} (hf : ∀ t : ℝ, 0 ≤ t → t ≤ 1 → 0 ≤ f t ∧ f t ≤ 1) :
    apply_easing points tp f =
      some (((List.range (max tp 2).toNat).map (easeIndex points.length f tp)).map
        fun i => points.getD i.toNat (0, 0)) := by
  unfold apply_easing
  have : ∀ i ∈ (List.range (max tp 2).toNat).map (easeIndex points.length f tp),
      0 ≤ i ∧ i.toNat < points.length := by
    intro i hi
    simp only [List.mem_map, List.mem_range] at hi
    obtain ⟨j, hj, rfl⟩ := hi
    obtain ⟨h0, h1⟩ := easeIndex_mem hM hf tp hj
    exact ⟨h0, by omega⟩
  exact selectPoints_eq_map points _ this

theorem apply_easing_length (points : List (ℝ × ℝ)) (hM : 1 ≤ points.length)
    (tp : ℤ) {f : ℝ → ℝ} (hf : ∀ t : ℝ, 0 ≤ t → t ≤ 1 → 0 ≤ f t ∧ f t ≤ 1) :
    ∃ out, apply_easing points tp f = some out ∧ out.length = (max tp 2).toNat := by
  refine ⟨_, apply_easing_eq_map points hM tp hf, ?_⟩
  simp

theorem easeIndex_zero {M : ℕ} (f : ℝ → ℝ) (hf0 : f 0 = 0) (tp : ℤ) :
    easeIndex M f tp 0 = 0 := by
  unfold easeIndex
  norm_num [hf0]
  simpa using pyInt_intCast 0

theorem easeIndex_last {M : ℕ} (hM : 1 ≤ M) (f : ℝ → ℝ) (hf1 : f 1 = 1) (tp : ℤ) :
    easeIndex M f tp ((max tp 2).toNat - 1) = (M : ℤ) - 1 := by
  unfold easeIndex
  have hN2 : (2 : ℤ) ≤ max tp 2 := le_max_right _ _
  have hcast : (((max tp 2).toNat - 1 : ℕ) : ℝ) = ((max tp 2 : ℤ) : ℝ) - 1 := by
    have h1 : ((max tp 2).toNat - 1 : ℕ) = ((max tp 2 - 1 : ℤ)).toNat := by omega
    rw [h1, ← Int.cast_natCast (R := ℝ), Int.toNat_of_nonneg (by omega : (0 : ℤ) ≤ max tp 2 - 1)]
    push_cast
    ring
  have hne : ((max tp 2 : ℤ) : ℝ) - 1 ≠ 0 := by
    have : (2 : ℝ) ≤ ((max tp 2 : ℤ) : ℝ) := by exact_mod_cast hN2
    linarith
  rw [hcast, div_self hne, hf1, one_mul]
  have : ((M : ℝ)) - 1 = (((M : ℤ) - 1 : ℤ) : ℝ) := by push_cast; ring
  rw [this, pyInt_intCast]

theorem apply_easing_head (points : List (ℝ × ℝ)) (hM : 1 ≤ points.length)
    (tp : ℤ) {f : ℝ → ℝ} (hf : ∀ t : ℝ, 0 ≤ t → t ≤ 1 → 0 ≤ f t ∧ f t ≤ 1)
    (hf0 : f 0 = 0) {out : List (ℝ × ℝ)} (hout : apply_easing points tp f = some out) :
    out.head? = points.head? := by
  rw [apply_easing_eq_map points hM tp hf] at hout
  obtain rfl := Option.some_injective _ hout.symm
  have hNpos : 0 < (max tp 2).toNat := by
    have : (2 : ℤ) ≤ max tp 2 := le_max_right _ _
    omega
  rw [List.head?_eq_getElem?, List.head?_eq_getElem?]
  rw [List.getElem?_map, List.getElem?_map, List.getElem?_range hNpos]
  simp only [Option.map_some']
  rw [easeIndex_zero f hf0 tp]
  cases points with
  | nil => simp at hM
  | cons p rest => simp [List.getD]

theorem apply_easing_last (points : List (ℝ × ℝ)) (hM : 1 ≤ points.length)
    (tp : ℤ) {f : ℝ → ℝ} (hf : ∀ t : ℝ, 0 ≤ t → t ≤ 1 → 0 ≤ f t ∧ f t ≤ 1)
    (hf1 : f 1 = 1) {out : List (ℝ × ℝ)} (hout : apply_easing points tp f = some out) :
    out.getLast? = points.getLast? := by
  rw [apply_easing_eq_map points hM tp hf] at hout
  obtain rfl := Option.some_injective _ hout.symm
  have hNpos : 0 < (max tp 2).toNat := by
    have : (2 : ℤ) ≤ max tp 2 := le_max_right _ _
    omega
  rw [List.getLast?_eq_getElem?, List.getLast?_eq_getElem?]
  simp only [List.length_map, List.length_range]
  rw [List.getElem?_map, List.getElem?_map, List.getElem?_range (by omega)]
  simp only [Option.map_some']
  rw [easeIndex_last hM f hf1 tp]
  have htoNat : ((points.length : ℤ) - 1).toNat = points.length - 1 := by omega
  rw [htoNat, List.getD_eq_get?, List.get?_eq_getElem?,
    List.getElem?_eq_getElem (by omega)]
  simp

/-! ### Lemmas: the bezier sampler -/

theorem binomial_left (n : ℕ) : binomial n 0 = 1 := by
  unfold binomial
  rw [Nat.factorial_zero, Nat.sub_zero, one_mul, div_self]
  exact_mod_cast (Nat.factorial_pos n).ne'

theorem binomial_right (n : ℕ) : binomial n n = 1 := by
  unfold binomial
  rw [Nat.sub_self, Nat.factorial_zero, mul_one, div_self]
  exact_mod_cast (Nat.factorial_pos n).ne'

theorem bernstein_polynomial_point_zero_left (n : ℕ) :
    bernstein_polynomial_point 0 0 n = 1 := by
  simp [bernstein_polynomial_point, binomial_left]

theorem bernstein_polynomial_point_zero {i n : ℕ} (hi : i ≠ 0) :
    bernstein_polynomial_point 0 i n = 0 := by
  simp [bernstein_polynomial_point, zero_pow hi]

theorem bernstein_polynomial_point_one_right (n : ℕ) :
    bernstein_polynomial_point 1 n n = 1 := by
  simp [bernstein_polynomial_point, binomial_right]

theorem bernstein_polynomial_point_one {i n : ℕ} (hi : i < n) :
    bernstein_polynomial_point 1 i n = 0 := by
  simp [bernstein_polynomial_point, zero_pow (by omega : n - i ≠ 0)]

theorem foldl_pair_add (l : List (ℕ × (ℝ × ℝ))) (g1 g2 : ℕ × (ℝ × ℝ) → ℝ) (a b : ℝ) :
    l.foldl (fun xy ip => (xy.1 + g1 ip, xy.2 + g2 ip)) (a, b)
      = (a + (l.map g1).sum, b + (l.map g2).sum) := by
  induction l generalizing a b with
  | nil => simp
  | cons x xs ih => simp [ih, add_assoc]

theorem sum_enumFrom_zero (l : List (ℝ × ℝ)) (n : ℕ) (v : ℝ × ℝ → ℝ) (c : ℕ → ℝ)
    (hc : ∀ i, n ≤ i → c i = 0) :
    ((l.enumFrom n).map fun ip => v ip.2 * c ip.1).sum = 0 := by
  induction l generalizing n with
  | nil => simp
  | cons p rest ih =>
    simp only [List.enumFrom_cons, List.map_cons, List.sum_cons]
    rw [hc n le_rfl, mul_zero, zero_add]
    exact ih (n + 1) fun i hi => hc i (by omega)

theorem sum_enumFrom_head (l : List (ℝ × ℝ)) (n : ℕ) (v : ℝ × ℝ → ℝ) (c : ℕ → ℝ)
    {p : ℝ × ℝ} (hl : l.head? = some p) (hc0 : c n = 1) (hc : ∀ i, n < i → c i = 0) :
    ((l.enumFrom n).map fun ip => v ip.2 * c ip.1).sum = v p := by
  cases l with
  | nil => simp at hl
  | cons q rest =>
    obtain rfl : q = p := by simpa using hl
    simp only [List.enumFrom_cons, List.map_cons, List.sum_cons]
    rw [hc0, mul_one, sum_enumFrom_zero rest (n + 1) v c fun i hi => hc i (by omega),
      add_zero]

theorem sum_enumFrom_last (l : List (ℝ × ℝ)) (n : ℕ) (v : ℝ × ℝ → ℝ) (c : ℕ → ℝ)
    {p : ℝ × ℝ} (hl : l.getLast? = some p) (hc1 : c (n + l.length - 1) = 1)
    (hc : ∀ i, n ≤ i → i < n + l.length - 1 → c i = 0) :
    ((l.enumFrom n).map fun ip => v ip.2 * c ip.1).sum = v p := by
  induction l generalizing n with
  | nil => simp at hl
  | cons q rest ih =>
    cases rest with
    | nil =>
      obtain rfl : q = p := by simpa using hl
      simp only [List.enumFrom_cons, List.map_cons, List.sum_cons, List.enumFrom_nil,
        List.map_nil, List.sum_nil, add_zero]
      have : c n = 1 := by simpa using hc1
      rw [this, mul_one]
    | cons r rest' =>
      have hlen : (q :: r :: rest').length = rest'.length + 2 := by simp
      simp only [List.enumFrom_cons, List.map_cons, List.sum_cons]
      have hq : c n = 0 := by
        apply hc n le_rfl
        simp only [List.length_cons]
        omega
      rw [hq, mul_zero, zero_add]
      have hl' : (r :: rest').getLast? = some p := by
        rw [← hl]
        simp [List.getLast?_cons_cons]
      apply ih (n + 1) hl'
      · have : n + 1 + (r :: rest').length - 1 = n + (q :: r :: rest').length - 1 := by
          simp only [List.length_cons]
          omega
        rw [this]
        exact hc1
      · intro i hi1 hi2
        apply hc i (by omega)
        simp only [List.length_cons] at hi2 ⊢
        omega

theorem bernstein_polynomial_eq_sum (points : List (ℝ × ℝ)) (t : ℝ) :
    bernstein_polynomial points t =
      ((points.enum.map fun ip =>
        ip.2.1 * bernstein_polynomial_point t ip.1 (points.length - 1)).sum,
       (points.enum.map fun ip =>
        ip.2.2 * bernstein_polynomial_point t ip.1 (points.length - 1)).sum) := by
  unfold bernstein_polynomial
  rw [foldl_pair_add]
  simp

theorem bernstein_polynomial_at_zero (points : List (ℝ × ℝ)) {p : ℝ × ℝ}
    (hl : points.head? = some p) : bernstein_polynomial points 0 = p := by
  rw [bernstein_polynomial_eq_sum]
  have h1 := sum_enumFrom_head points 0 Prod.fst
    (fun i => bernstein_polynomial_point 0 i (points.length - 1)) hl
    (bernstein_polynomial_point_zero_left _)
    (fun i hi => bernstein_polynomial_point_zero (by omega))
  have h2 := sum_enumFrom_head points 0 Prod.snd
    (fun i => bernstein_polynomial_point 0 i (points.length - 1)) hl
    (bernstein_polynomial_point_zero_left _)
    (fun i hi => bernstein_polynomial_point_zero (by omega))
  rw [List.enum_eq_enumFrom]
  exact Prod.ext h1 h2

theorem bernstein_polynomial_at_one (points : List (ℝ × ℝ)) {p : ℝ × ℝ}
    (hl : points.getLast? = some p) : bernstein_polynomial points 1 = p := by
  rw [bernstein_polynomial_eq_sum]
  have h1 := sum_enumFrom_last points 0 Prod.fst
    (fun i => bernstein_polynomial_point 1 i (points.length - 1)) hl
    (by rw [Nat.zero_add]; exact bernstein_polynomial_point_one_right _)
    (fun i hi1 hi2 => bernstein_polynomial_point_one (by omega))
  have h2 := sum_enumFrom_last points 0 Prod.snd
    (fun i => bernstein_polynomial_point 1 i (points.length - 1)) hl
    (by rw [Nat.zero_add]; exact bernstein_polynomial_point_one_right _)
    (fun i hi1 hi2 => bernstein_polynomial_point_one (by omega))
  rw [List.enum_eq_enumFrom]
  exact Prod.ext h1 h2

/-! ### Lemmas: the sampled bezier curve -/

theorem bezierNumPoints_ge_two (from_point to_point : ℝ × ℝ) :
    2 ≤ bezierNumPoints from_point to_point := le_max_right _ _

theorem generate_bezier_curve_points_length (from_point to_point : ℝ × ℝ)
    (internal_knots : List (ℝ × ℝ)) :
    (generate_bezier_curve_points from_point to_point internal_knots).length =
      bezierNumPoints from_point to_point := by
  unfold generate_bezier_curve_points
  dsimp only
  rw [List.length_map, List.length_range]

theorem generate_bezier_curve_points_head (from_point to_point : ℝ × ℝ)
    (internal_knots : List (ℝ × ℝ)) :
    (generate_bezier_curve_points from_point to_point internal_knots).head? =
      some from_point := by
  unfold generate_bezier_curve_points
  dsimp only
  have hpos : 0 < bezierNumPoints from_point to_point := by
    have := bezierNumPoints_ge_two from_point to_point
    omega
  rw [List.head?_eq_getElem?, List.getElem?_map, List.getElem?_range hpos]
  simp only [Option.map_some', Nat.cast_zero, zero_div]
  rw [bernstein_polynomial_at_zero _ (by simp : (from_point ::
    (internal_knots ++ [to_point])).head? = some from_point)]

theorem generate_bezier_curve_points_last (from_point to_point : ℝ × ℝ)
    (internal_knots : List (ℝ × ℝ)) :
    (generate_bezier_curve_points from_point to_point internal_knots).getLast? =
      some to_point := by
  unfold generate_bezier_curve_points
  dsimp only
  have h2 : 2 ≤ bezierNumPoints from_point to_point :=
    bezierNumPoints_ge_two from_point to_point
  rw [List.getLast?_eq_getElem?]
  simp only [List.length_map, List.length_range]
  rw [List.getElem?_map, List.getElem?_range (by omega)]
  simp only [Option.map_some']
  have ht : ((bezierNumPoints from_point to_point - 1 : ℕ) : ℝ) /
      ((bezierNumPoints from_point to_point : ℕ) - 1 : ℝ) = 1 := by
    have : ((bezierNumPoints from_point to_point - 1 : ℕ) : ℝ) =
        ((bezierNumPoints from_point to_point : ℕ) : ℝ) - 1 := by
      have := h2
      push_cast [Nat.cast_sub (by omega : 1 ≤ bezierNumPoints from_point to_point)]
      ring
    rw [this, div_self]
    have hc : (2 : ℝ) ≤ ((bezierNumPoints from_point to_point : ℕ) : ℝ) := by
      exact_mod_cast h2
    linarith
  have hlast : (from_point :: (internal_knots ++ [to_point])).getLast? = some to_point := by
    rw [show from_point :: (internal_knots ++ [to_point])
      = (from_point :: internal_knots) ++ [to_point] from rfl]
    exact List.getLast?_concat _
  rw [ht, bernstein_polynomial_at_one _ hlast]

/-! ### Lemmas: the tremor (distortion) stage -/

theorem apply_distortion_spec (points : List (ℝ × ℝ)) (h2 : 2 ≤ points.length)
    (distortion_mean distortion_stdev distortion_frequency : ℝ) (coin gauss : ℕ → ℝ) :
    ∃ out, apply_distortion points distortion_mean distortion_stdev distortion_frequency
        coin gauss = some out ∧
      out.length = points.length ∧
      out.head? = points.head? ∧
      out.getLast? = points.getLast? ∧
      out.map Prod.fst = points.map Prod.fst := by
  match points, h2 with
  | p0 :: r :: rest, _ =>
    set tail : List (ℝ × ℝ) := r :: rest with htail
    have htne : tail ≠ [] := by simp [htail]
    set freq := if ¬(0 ≤ distortion_frequency ∧ distortion_frequency ≤ 1)
      then (1 : ℝ) / 2 else distortion_frequency with hfreq
    set mid := tail.dropLast.enum.map fun jq =>
      if coin (jq.1 + 1) < freq then (jq.2.1, jq.2.2 + gauss (jq.1 + 1)) else jq.2
      with hmid
    refine ⟨p0 :: mid ++ [tail.getLastD p0], rfl, ?_, ?_, ?_, ?_⟩
    · have htl : tail.length ≥ 1 := by simp [htail]
      simp only [hmid, List.length_cons, List.length_append, List.length_map,
        List.enum_eq_enumFrom, List.enumFrom_length, List.length_dropLast]
      simp only [htail, List.length_cons, List.length_nil]
      omega
    · rfl
    · rw [show p0 :: mid ++ [tail.getLastD p0] = (p0 :: mid) ++ [tail.getLastD p0]
        from rfl, List.getLast?_concat]
      rw [List.getLastD_eq_getLast? , List.getLast?_eq_getLast _ htne, Option.getD_some,
        show (p0 :: tail).getLast? = tail.getLast? from List.getLast?_cons_cons,
        List.getLast?_eq_getLast _ htne]
    · have hmidfst : mid.map Prod.fst = tail.dropLast.map Prod.fst := by
        rw [hmid, List.map_map]
        have : (Prod.fst ∘ fun jq : ℕ × (ℝ × ℝ) =>
            if coin (jq.1 + 1) < freq then (jq.2.1, jq.2.2 + gauss (jq.1 + 1)) else jq.2)
            = fun jq : ℕ × (ℝ × ℝ) => jq.2.1 := by
          funext jq
          by_cases h : coin (jq.1 + 1) < freq <;> simp [h]
        rw [this, show (fun jq : ℕ × (ℝ × ℝ) => jq.2.1)
          = Prod.fst ∘ Prod.snd from rfl, ← List.map_map, List.enum_eq_enumFrom,
          List.enumFrom_map_snd]
      have hsplit : tail.dropLast ++ [tail.getLast htne] = tail :=
        List.dropLast_append_getLast htne
      have hlastD : tail.getLastD p0 = tail.getLast htne := by
        rw [List.getLastD_eq_getLast?, List.getLast?_eq_getLast _ htne, Option.getD_some]
      calc (p0 :: mid ++ [tail.getLastD p0]).map Prod.fst
          = p0.1 :: (mid.map Prod.fst ++ [(tail.getLastD p0).1]) := by simp
        _ = p0.1 :: (tail.dropLast.map Prod.fst ++ [(tail.getLast htne).1]) := by
            rw [hmidfst, hlastD]
        _ = p0.1 :: (tail.dropLast ++ [tail.getLast htne]).map Prod.fst := by
            rw [List.map_append]
            rfl
        _ = (p0 :: tail).map Prod.fst := by rw [hsplit]; rfl

/-! ### Lemmas: the full pipeline -/

theorem easingFun_unit (e : EasingChoice) :
    ∀ t : ℝ, 0 ≤ t → t ≤ 1 → 0 ≤ easingFun e t ∧ easingFun e t ≤ 1 :=
  fun _ h0 h1 => ⟨easingFun_nonneg e h0 h1, easingFun_le_one e h0 h1⟩

theorem generate_human_mouse_trajectory_spec (env : RandomEnv) (p q : ℝ × ℝ)
    (okc : Option ℕ) (om os ofq : Option ℝ) (otgt : Option ℤ) (oox ooy : Option ℝ) :
    ∃ traj, generate_human_mouse_trajectory env p q okc om os ofq otgt oox ooy
        = some traj ∧ traj.head? = some p ∧ traj.getLast? = some q ∧
      traj.length = (max (otgt.getD env.targetPoints) 2).toNat := by
  unfold generate_human_mouse_trajectory
  dsimp only
  set ik := generate_internal_knots p q (okc.getD env.knotsCount)
    (resolvedOffsets env oox ooy).1 (resolvedOffsets env oox ooy).2 env.rx env.ry with hik
  set pts := generate_bezier_curve_points p q ik with hpts
  have h2 : 2 ≤ pts.length := by
    rw [hpts, generate_bezier_curve_points_length]
    exact bezierNumPoints_ge_two p q
  obtain ⟨dis, hdist, hlen, hhead, hlast, _⟩ := apply_distortion_spec pts h2
    (resolvedDistortion env om os ofq).1 (resolvedDistortion env om os ofq).2.1
    (resolvedDistortion env om os ofq).2.2 env.coin env.gauss
  rw [hdist, Option.some_bind]
  have hM : 1 ≤ dis.length := by omega
  obtain ⟨out, hout, houtlen⟩ :=
    apply_easing_length dis hM (otgt.getD env.targetPoints) (easingFun_unit env.easing)
  refine ⟨out, hout, ?_, ?_, houtlen⟩
  · rw [apply_easing_head dis hM _ (easingFun_unit env.easing)
      (easingFun_zero env.easing) hout, hhead, hpts,
      generate_bezier_curve_points_head]
  · rw [apply_easing_last dis hM _ (easingFun_unit env.easing)
      (easingFun_one env.easing) hout, hlast, hpts,
      generate_bezier_curve_points_last]

/-! ### Lemmas: the execution engine -/

theorem calculate_distance_nonneg (x1 y1 x2 y2 : ℝ) :
    0 ≤ calculate_distance x1 y1 x2 y2 := Real.sqrt_nonneg _

theorem segmentLengths_length (traj : List (ℝ × ℝ)) :
    (segmentLengths traj).length = traj.length - 1 := by
  unfold segmentLengths
  rw [List.length_map, List.length_zip, List.length_tail]
  omega

theorem segmentLengths_sum_nonneg (traj : List (ℝ × ℝ)) :
    0 ≤ (segmentLengths traj).sum := by
  apply List.sum_nonneg
  intro d hd
  unfold segmentLengths at hd
  obtain ⟨pq, _, rfl⟩ := List.mem_map.1 hd
  exact calculate_distance_nonneg _ _ _ _

/-! ### Lemmas: knot generation -/

theorem randint_mem {a b : ℤ} (h : a < b) (u : ℤ) :
    a ≤ randint a b u ∧ randint a b u ≤ b := by
  unfold randint
  have hpos : 0 < b - a + 1 := by omega
  have h1 : 0 ≤ u % (b - a + 1) := Int.emod_nonneg u (by omega)
  have h2 : u % (b - a + 1) < b - a + 1 := Int.emod_lt_of_pos u hpos
  omega

theorem knotBoundsX_lt (p q : ℝ × ℝ) (ox : ℝ) :
    (knotBoundsX p q ox).1 < (knotBoundsX p q ox).2 := by
  unfold knotBoundsX
  dsimp only
  split <;> omega

theorem knotBoundsY_lt (p q : ℝ × ℝ) (oy : ℝ) :
    (knotBoundsY p q oy).1 < (knotBoundsY p q oy).2 := by
  unfold knotBoundsY
  dsimp only
  split <;> omega

theorem pyInt_ge_sub_one (x : ℝ) : x - 1 ≤ (pyInt x : ℝ) := by
  unfold pyInt
  split
  · have := Int.sub_one_lt_floor x
    linarith
  · have := Int.le_ceil x
    linarith

theorem pyInt_le_add_one (x : ℝ) : (pyInt x : ℝ) ≤ x + 1 := by
  unfold pyInt
  split
  · have := Int.floor_le x
    linarith
  · have := Int.ceil_lt_add_one x
    linarith

theorem generate_internal_knots_length (p q : ℝ × ℝ) (kc : ℕ) (ox oy : ℝ)
    (rx ry : ℕ → ℤ) :
    (generate_internal_knots p q kc ox oy rx ry).length = kc := by
  unfold generate_internal_knots
  simp

/-! ### Lemmas: `move_to` -/

theorem move_to_skip (env : RandomEnv) (humanize : Bool) (st : ℝ × ℝ) (x y : ℝ)
    (duration : Option ℝ) (h : calculate_distance st.1 st.2 x y < 1) :
    move_to env humanize st x y duration = some (st, []) := by
  unfold move_to
  rw [if_pos h]

/-! ### Claim theorems -/

/-- C1: for every start and end point and every choice of pipeline
parameters (knot count, distortion parameters, target points, easing
choice — all quantified through the explicit arguments and the random
environment), the generated trajectory exists, its first element is exactly
the start, and its last element is exactly the end. -/
theorem trajectory_preserves_endpoints (env : RandomEnv) (p q : ℝ × ℝ)
    (okc : Option ℕ) (om os ofq : Option ℝ) (otgt : Option ℤ) (oox ooy : Option ℝ) :
    ∃ traj, generate_human_mouse_trajectory env p q okc om os ofq otgt oox ooy
        = some traj ∧ traj.head? = some p ∧ traj.getLast? = some q := by
  obtain ⟨traj, h1, h2, h3, _⟩ :=
    generate_human_mouse_trajectory_spec env p q okc om os ofq otgt oox ooy
  exact ⟨traj, h1, h2, h3⟩

/-- C2: for every input of length ≥ 2 and every requested `target_points`,
the easing stage (with any easing function mapping `[0,1]` into `[0,1]`, as
every catalog member does) returns exactly `max(target_points, 2)` points:
a request ≥ 2 is honoured exactly, a request below 2 is clamped up to 2
rather than rejected. -/
theorem easing_output_length (points : List (ℝ × ℝ)) (h2 : 2 ≤ points.length)
    (target_points : ℤ) (f : ℝ → ℝ)
    (hf : ∀ t : ℝ, 0 ≤ t → t ≤ 1 → 0 ≤ f t ∧ f t ≤ 1) :
    ∃ out, apply_easing points target_points f = some out ∧
      (out.length : ℤ) = max target_points 2 ∧
      (2 ≤ target_points → (out.length : ℤ) = target_points) ∧
      (target_points < 2 → out.length = 2) := by
  obtain ⟨out, hout, hlen⟩ := apply_easing_length points (by omega) target_points hf
  have hmax : (0 : ℤ) ≤ max target_points 2 := le_trans (by norm_num) (le_max_right _ _)
  have hcast : (out.length : ℤ) = max target_points 2 := by
    rw [hlen, Int.toNat_of_nonneg hmax]
  refine ⟨out, hout, hcast, fun htp => ?_, fun htp => ?_⟩
  · rw [hcast, max_eq_left htp]
  · have : (out.length : ℤ) = 2 := by rw [hcast, max_eq_right (le_of_lt htp)]
    exact_mod_cast this

theorem easing_output_length_witness :
    2 ≤ ([((0 : ℝ), (0 : ℝ)), ((3 : ℝ), (4 : ℝ))]).length ∧
      (∀ t : ℝ, 0 ≤ t → t ≤ 1 → 0 ≤ easingFun .lin t ∧ easingFun .lin t ≤ 1) ∧
      ∃ out, apply_easing [((0 : ℝ), (0 : ℝ)), ((3 : ℝ), (4 : ℝ))] 5 (easingFun .lin)
          = some out ∧
        (out.length : ℤ) = max 5 2 ∧
        (2 ≤ (5 : ℤ) → (out.length : ℤ) = 5) ∧
        ((5 : ℤ) < 2 → out.length = 2) :=
  ⟨by norm_num, easingFun_unit .lin,
    easing_output_length _ (by norm_num) 5 _ (easingFun_unit .lin)⟩

/-- C4: whenever the requested destination is less than one unit away from
the current cursor state, `move_to` dispatches nothing and leaves the state
unchanged, in humanized and teleport mode alike. -/
theorem move_close_no_dispatch (env : RandomEnv) (humanize : Bool) (st : ℝ × ℝ)
    (x y : ℝ) (duration : Option ℝ)
    (h : calculate_distance st.1 st.2 x y < 1) :
    move_to env humanize st x y duration = some (st, []) :=
  move_to_skip env humanize st x y duration h

theorem move_close_no_dispatch_witness :
    calculate_distance (5 : ℝ) (5 : ℝ) (11 / 2 : ℝ) (5 : ℝ) < 1 ∧
      move_to defaultEnv true ((5 : ℝ), (5 : ℝ)) (11 / 2) 5 none
        = some (((5 : ℝ), (5 : ℝ)), []) ∧
      move_to defaultEnv false ((5 : ℝ), (5 : ℝ)) (11 / 2) 5 none
        = some (((5 : ℝ), (5 : ℝ)), []) := by
  have hd : calculate_distance (5 : ℝ) (5 : ℝ) (11 / 2 : ℝ) (5 : ℝ) < 1 := by
    unfold calculate_distance
    rw [show ((11 : ℝ) / 2 - 5) ^ 2 + ((5 : ℝ) - 5) ^ 2 = (1 / 2) ^ 2 by norm_num,
      Real.sqrt_sq (by norm_num : (0 : ℝ) ≤ 1 / 2)]
    norm_num
  exact ⟨hd, move_close_no_dispatch defaultEnv true ((5 : ℝ), (5 : ℝ)) (11 / 2) 5 none hd,
    move_close_no_dispatch defaultEnv false ((5 : ℝ), (5 : ℝ)) (11 / 2) 5 none hd⟩

/-- C5: for every catalog easing function, every input of length ≥ 1 and
every output position `i`, the selected source index lies in
`[0, M - 1]`, so the point selection never indexes outside the input list
(the lookup succeeds). -/
theorem ease_index_in_range (e : EasingChoice) (points : List (ℝ × ℝ))
    (hM : 1 ≤ points.length) (target_points : ℤ) (i : ℕ)
    (hi : i < (max target_points 2).toNat) :
    0 ≤ easeIndex points.length (easingFun e) target_points i ∧
      easeIndex points.length (easingFun e) target_points i ≤ (points.length : ℤ) - 1 ∧
      (pyGet points (easeIndex points.length (easingFun e) target_points i)).isSome := by
  obtain ⟨h0, h1⟩ := easeIndex_mem hM (easingFun_unit e) target_points hi
  refine ⟨h0, h1, ?_⟩
  rw [pyGet_of_valid points h0 (by omega), List.get?_eq_get (by omega)]
  rfl

theorem ease_index_in_range_witness :
    1 ≤ ([((0 : ℝ), (0 : ℝ)), ((3 : ℝ), (4 : ℝ))]).length ∧
      1 < ((max (3 : ℤ) 2).toNat) ∧
      (0 ≤ easeIndex 2 (easingFun .outSine) 3 1 ∧
        easeIndex 2 (easingFun .outSine) 3 1 ≤ (2 : ℤ) - 1 ∧
        (pyGet [((0 : ℝ), (0 : ℝ)), ((3 : ℝ), (4 : ℝ))]
          (easeIndex 2 (easingFun .outSine) 3 1)).isSome) :=
  ⟨by norm_num, by norm_num,
    ease_index_in_range .outSine [((0 : ℝ), (0 : ℝ)), ((3 : ℝ), (4 : ℝ))]
      (by norm_num) 3 1 (by norm_num)⟩

/-- C6: for every input of length ≥ 2 and any distortion parameters
(the frequency may lie outside `[0,1]`; it is then clamped to `0.5`, never
rejected), the distortion stage succeeds, preserves the length, passes the
first and last points through unchanged, and never perturbs any
x-coordinate. -/
theorem distortion_frame (points : List (ℝ × ℝ)) (h2 : 2 ≤ points.length)
    (distortion_mean distortion_stdev distortion_frequency : ℝ) (coin gauss : ℕ → ℝ) :
    ∃ out, apply_distortion points distortion_mean distortion_stdev
        distortion_frequency coin gauss = some out ∧
      out.length = points.length ∧
      out.head? = points.head? ∧
      out.getLast? = points.getLast? ∧
      out.map Prod.fst = points.map Prod.fst :=
  apply_distortion_spec points h2 distortion_mean distortion_stdev
    distortion_frequency coin gauss

theorem distortion_frame_witness :
    2 ≤ ([((0 : ℝ), (0 : ℝ)), ((1 : ℝ), (2 : ℝ)), ((3 : ℝ), (4 : ℝ))]).length ∧
      ∃ out, apply_distortion [((0 : ℝ), (0 : ℝ)), ((1 : ℝ), (2 : ℝ)), ((3 : ℝ), (4 : ℝ))]
          1 0 5 (fun _ => 0) (fun _ => 7) = some out ∧
        out.length = ([((0 : ℝ), (0 : ℝ)), ((1 : ℝ), (2 : ℝ)), ((3 : ℝ), (4 : ℝ))]).length ∧
        out.head? = ([((0 : ℝ), (0 : ℝ)), ((1 : ℝ), (2 : ℝ)), ((3 : ℝ), (4 : ℝ))]).head? ∧
        out.getLast? = ([((0 : ℝ), (0 : ℝ)), ((1 : ℝ), (2 : ℝ)), ((3 : ℝ), (4 : ℝ))]).getLast? ∧
        out.map Prod.fst
          = ([((0 : ℝ), (0 : ℝ)), ((1 : ℝ), (2 : ℝ)), ((3 : ℝ), (4 : ℝ))]).map Prod.fst :=
  ⟨by norm_num, distortion_frame _ (by norm_num) 1 0 5 (fun _ => 0) (fun _ => 7)⟩

/-- C9: `move_by` is observationally equivalent to `move_to` at the
offset target computed from the current cursor state: same dispatch
sequence, same final state (it is literally that call). -/
theorem move_by_eq_move_to (env : RandomEnv) (humanize : Bool) (st : ℝ × ℝ)
    (delta_x delta_y : ℝ) (duration : Option ℝ) :
    move_by env humanize st delta_x delta_y duration
      = move_to env humanize st (st.1 + delta_x) (st.2 + delta_y) duration := rfl

/-- C10: a freshly constructed mouse API has cursor state `(0, 0)`,
`get_position` returns exactly that, and a first move to any destination
closer than one unit dispatches nothing and leaves the state at `(0, 0)`. -/
theorem initial_cursor_spec :
    get_position initialCursor = (0, 0) ∧
      ∀ (env : RandomEnv) (humanize : Bool) (x y : ℝ) (duration : Option ℝ),
        calculate_distance initialCursor.1 initialCursor.2 x y < 1 →
        move_to env humanize initialCursor x y duration = some (initialCursor, []) ∧
          get_position initialCursor = (0, 0) := by
  refine ⟨rfl, fun env humanize x y duration h => ?_⟩
  exact ⟨move_to_skip env humanize initialCursor x y duration h, rfl⟩

theorem initial_cursor_spec_witness :
    get_position initialCursor = (0, 0) ∧
      calculate_distance initialCursor.1 initialCursor.2 (3 / 10) (2 / 5) < 1 ∧
      move_to defaultEnv true initialCursor (3 / 10) (2 / 5) none
        = some (initialCursor, []) := by
  have hd : calculate_distance initialCursor.1 initialCursor.2 (3 / 10) (2 / 5) < 1 := by
    unfold calculate_distance initialCursor
    rw [show ((3 : ℝ) / 10 - ((0 : ℝ), (0 : ℝ)).1) ^ 2
        + ((2 : ℝ) / 5 - ((0 : ℝ), (0 : ℝ)).2) ^ 2 = (1 / 2) ^ 2 by norm_num,
      Real.sqrt_sq (by norm_num : (0 : ℝ) ≤ 1 / 2)]
    norm_num
  exact ⟨initial_cursor_spec.1,
    hd, (initial_cursor_spec.2 defaultEnv true (3 / 10) (2 / 5) none hd).1⟩

/-- C3: on a trajectory of `N ≥ 2` points, the execution engine dispatches
exactly the trajectory points in order, the first with zero delay and each
subsequent one after `duration * (segment length / total arc length)` —
falling back to the uniform `duration / (N - 1)` when the total arc length
is zero — and in exact arithmetic the delays sum to `duration`. -/
theorem execute_trajectory_timing (traj : List (ℝ × ℝ)) (duration : ℝ)
    (h2 : 2 ≤ traj.length) :
    (execute_trajectory traj duration).map Prod.snd = traj ∧
      (execute_trajectory traj duration).map Prod.fst
        = 0 :: (segmentLengths traj).map (fun l =>
            if (segmentLengths traj).sum = 0 then duration / ((traj.length : ℝ) - 1)
            else duration * (l / (segmentLengths traj).sum)) ∧
      ((execute_trajectory traj duration).map Prod.fst).sum = duration := by
  match traj, h2 with
  | p0 :: rest, hh =>
    have hrest1 : 1 ≤ rest.length := by
      simp only [List.length_cons] at hh
      omega
    have hlenlen : (segmentLengths (p0 :: rest)).length = rest.length := by
      rw [segmentLengths_length]
      simp
    have h0tot : 0 ≤ (segmentLengths (p0 :: rest)).sum :=
      segmentLengths_sum_nonneg (p0 :: rest)
    have hcastlen : ((p0 :: rest).length : ℝ) - 1 = (rest.length : ℝ) := by
      push_cast [List.length_cons]
      ring
    have hcne : ((rest.length : ℕ) : ℝ) ≠ 0 := Nat.cast_ne_zero.mpr (by omega)
    have hb : (execute_trajectory (p0 :: rest) duration).map Prod.fst
        = 0 :: (segmentLengths (p0 :: rest)).map (fun l =>
            if (segmentLengths (p0 :: rest)).sum = 0
            then duration / (((p0 :: rest).length : ℝ) - 1)
            else duration * (l / (segmentLengths (p0 :: rest)).sum)) := by
      unfold execute_trajectory
      dsimp only
      rw [List.map_cons, List.map_map, List.tail_cons]
      have hmapfst : ((segmentLengths (p0 :: rest)).zip rest).map
          ((fun l : ℝ => if (segmentLengths (p0 :: rest)).sum > 0
            then l / (segmentLengths (p0 :: rest)).sum * duration
            else duration / (max ((p0 :: rest).length - 1) 1 : ℕ)) ∘ Prod.fst)
          = (((segmentLengths (p0 :: rest)).zip rest).map Prod.fst).map
            (fun l : ℝ => if (segmentLengths (p0 :: rest)).sum > 0
            then l / (segmentLengths (p0 :: rest)).sum * duration
            else duration / (max ((p0 :: rest).length - 1) 1 : ℕ)) := by
        rw [List.map_map]
      have hzipfst : ((segmentLengths (p0 :: rest)).zip rest).map Prod.fst
          = segmentLengths (p0 :: rest) :=
        List.map_fst_zip _ _ (by omega)
      refine congrArg (List.cons 0) ?_
      rw [show (Prod.fst ∘ fun dp : ℝ × (ℝ × ℝ) =>
          (if (segmentLengths (p0 :: rest)).sum > 0
            then dp.1 / (segmentLengths (p0 :: rest)).sum * duration
            else duration / (max ((p0 :: rest).length - 1) 1 : ℕ), dp.2))
          = (fun l : ℝ => if (segmentLengths (p0 :: rest)).sum > 0
            then l / (segmentLengths (p0 :: rest)).sum * duration
            else duration / (max ((p0 :: rest).length - 1) 1 : ℕ)) ∘ Prod.fst from rfl,
        ← List.map_map, hzipfst]
      apply List.map_congr_left
      intro l _
      by_cases ht : (segmentLengths (p0 :: rest)).sum = 0
      · rw [if_neg (by rw [ht]; exact lt_irrefl 0), if_pos ht]
        have hmax : max ((p0 :: rest).length - 1) 1 = rest.length := by
          simp only [List.length_cons]
          omega
        rw [hmax, hcastlen]
      · rw [if_pos (lt_of_le_of_ne h0tot (Ne.symm ht)), if_neg ht]
        ring
    refine ⟨?_, hb, ?_⟩
    · unfold execute_trajectory
      dsimp only
      rw [List.map_cons, List.map_map, List.tail_cons]
      rw [show (Prod.snd ∘ fun dp : ℝ × (ℝ × ℝ) =>
          (if (segmentLengths (p0 :: rest)).sum > 0
            then dp.1 / (segmentLengths (p0 :: rest)).sum * duration
            else duration / (max ((p0 :: rest).length - 1) 1 : ℕ), dp.2))
          = (Prod.snd : ℝ × (ℝ × ℝ) → ℝ × ℝ) from rfl]
      rw [List.map_snd_zip _ _ (by omega)]
    · rw [hb, List.sum_cons, zero_add]
      by_cases ht : (segmentLengths (p0 :: rest)).sum = 0
      · have hconst : (fun l : ℝ =>
            if (segmentLengths (p0 :: rest)).sum = 0
            then duration / (((p0 :: rest).length : ℝ) - 1)
            else duration * (l / (segmentLengths (p0 :: rest)).sum))
            = fun _ : ℝ => duration / (((p0 :: rest).length : ℝ) - 1) := by
          funext l
          rw [if_pos ht]
        rw [hconst, List.map_const', List.sum_replicate, nsmul_eq_mul, hlenlen, hcastlen]
        rw [mul_comm, div_mul_cancel₀ _ hcne]
      · have hfun : (fun l : ℝ =>
            if (segmentLengths (p0 :: rest)).sum = 0
            then duration / (((p0 :: rest).length : ℝ) - 1)
            else duration * (l / (segmentLengths (p0 :: rest)).sum))
            = fun l : ℝ => duration * (l * ((segmentLengths (p0 :: rest)).sum)⁻¹) := by
          funext l
          rw [if_neg ht, div_eq_mul_inv]
        rw [hfun, List.sum_map_mul_left, List.sum_map_mul_right, List.map_id',
          mul_inv_cancel₀ ht, mul_one]

theorem execute_trajectory_timing_witness :
    2 ≤ ([((0 : ℝ), (0 : ℝ)), ((3 : ℝ), (4 : ℝ))]).length ∧
      ((execute_trajectory [((0 : ℝ), (0 : ℝ)), ((3 : ℝ), (4 : ℝ))] 2).map Prod.snd
        = [((0 : ℝ), (0 : ℝ)), ((3 : ℝ), (4 : ℝ))] ∧
      (execute_trajectory [((0 : ℝ), (0 : ℝ)), ((3 : ℝ), (4 : ℝ))] 2).map Prod.fst
        = 0 :: (segmentLengths [((0 : ℝ), (0 : ℝ)), ((3 : ℝ), (4 : ℝ))]).map (fun l =>
            if (segmentLengths [((0 : ℝ), (0 : ℝ)), ((3 : ℝ), (4 : ℝ))]).sum = 0
            then 2 / ((([((0 : ℝ), (0 : ℝ)), ((3 : ℝ), (4 : ℝ))]).length : ℝ) - 1)
            else 2 * (l / (segmentLengths [((0 : ℝ), (0 : ℝ)), ((3 : ℝ), (4 : ℝ))]).sum)) ∧
      ((execute_trajectory [((0 : ℝ), (0 : ℝ)), ((3 : ℝ), (4 : ℝ))] 2).map Prod.fst).sum
        = 2) :=
  ⟨by norm_num, execute_trajectory_timing [((0 : ℝ), (0 : ℝ)), ((3 : ℝ), (4 : ℝ))] 2
    (by norm_num)⟩

/-- C7 counterexample: with start `(10.5, 0)`, end `(20, 0)`,
`offset_boundary_x = 0.2`, `offset_boundary_y = 0` and one knot, the integer
boundaries are `[10, 20] × [0, 1]` (valid `randint` ranges), and the
perfectly possible draw `x = 10` produces the knot `(10, 0)` whose
x-coordinate lies strictly outside the claimed rectangle, whose left edge is
`min(start.x, end.x) - offset_x = 10.3`. -/
theorem knots_escape_rectangle_counterexample :
    knotBoundsX ((21 / 2 : ℝ), 0) ((20 : ℝ), 0) (1 / 5) = (10, 20) ∧
      knotBoundsY ((21 / 2 : ℝ), 0) ((20 : ℝ), 0) 0 = (0, 1) ∧
      generate_internal_knots ((21 / 2 : ℝ), 0) ((20 : ℝ), 0) 1 (1 / 5) 0
        (fun _ => 0) (fun _ => 0) = [((10 : ℝ), 0)] ∧
      ¬(min ((21 : ℝ) / 2) 20 - 1 / 5 ≤ 10) := by
  have hminx : min ((21 : ℝ) / 2) 20 = 21 / 2 := min_eq_left (by norm_num)
  have hmaxx : max ((21 : ℝ) / 2) 20 = 20 := max_eq_right (by norm_num)
  have hl : pyInt (min ((21 : ℝ) / 2) 20 - 1 / 5) = 10 := by
    rw [hminx, pyInt_of_nonneg (by norm_num)]
    rw [Int.floor_eq_iff]
    norm_num
  have hr : pyInt (max ((21 : ℝ) / 2) 20 + 1 / 5) = 20 := by
    rw [hmaxx, pyInt_of_nonneg (by norm_num)]
    rw [Int.floor_eq_iff]
    norm_num
  have hd : pyInt (min ((0 : ℝ)) 0 - 0) = 0 := by
    rw [show min ((0 : ℝ)) 0 - 0 = ((0 : ℤ) : ℝ) by norm_num, pyInt_intCast]
  have hu : pyInt (max ((0 : ℝ)) 0 + 0) = 0 := by
    rw [show max ((0 : ℝ)) 0 + 0 = ((0 : ℤ) : ℝ) by norm_num, pyInt_intCast]
  have hbx : knotBoundsX ((21 / 2 : ℝ), 0) ((20 : ℝ), 0) (1 / 5) = (10, 20) := by
    unfold knotBoundsX
    dsimp only
    rw [hl, hr, if_neg (by omega)]
  have hby : knotBoundsY ((21 / 2 : ℝ), 0) ((20 : ℝ), 0) 0 = (0, 1) := by
    unfold knotBoundsY
    dsimp only
    rw [hd, hu, if_pos (by omega)]
    norm_num
  refine ⟨hbx, hby, ?_, ?_⟩
  · unfold generate_internal_knots
    rw [hbx, hby]
    dsimp only
    rw [show List.range 1 = [0] from rfl]
    rw [show randint 10 20 0 = 10 from by decide, show randint 0 1 0 = 0 from by decide]
    norm_num
  · rw [hminx]
    norm_num

/-- C7 amended: the builder returns exactly `knot_count` integer-coordinate
knots (zero knots for `knot_count = 0`), each lying within the
integer-truncated boundaries actually computed by the code; for nonnegative
offsets those boundaries — and hence every knot — lie within the claimed
rectangle enlarged by one unit to the left/bottom and two units to the
right/top, but (per the counterexample) not necessarily within the claimed
rectangle itself. -/
theorem knots_in_truncated_bounds (p q : ℝ × ℝ) (kc : ℕ) (ox oy : ℝ)
    (hx : 0 ≤ ox) (hy : 0 ≤ oy) (rx ry : ℕ → ℤ) :
    (generate_internal_knots p q kc ox oy rx ry).length = kc ∧
      (kc = 0 → generate_internal_knots p q kc ox oy rx ry = []) ∧
      ∀ k ∈ generate_internal_knots p q kc ox oy rx ry,
        ((knotBoundsX p q ox).1 : ℝ) ≤ k.1 ∧ k.1 ≤ ((knotBoundsX p q ox).2 : ℝ) ∧
        ((knotBoundsY p q oy).1 : ℝ) ≤ k.2 ∧ k.2 ≤ ((knotBoundsY p q oy).2 : ℝ) ∧
        min p.1 q.1 - ox - 1 ≤ k.1 ∧ k.1 ≤ max p.1 q.1 + ox + 2 ∧
        min p.2 q.2 - oy - 1 ≤ k.2 ∧ k.2 ≤ max p.2 q.2 + oy + 2 := by
  refine ⟨generate_internal_knots_length p q kc ox oy rx ry, ?_, ?_⟩
  · intro h
    unfold generate_internal_knots
    rw [h]
    rfl
  · intro k hk
    unfold generate_internal_knots at hk
    simp only [List.mem_map, List.mem_range] at hk
    obtain ⟨j, _, rfl⟩ := hk
    obtain ⟨hx1, hx2⟩ := randint_mem (knotBoundsX_lt p q ox) (rx j)
    obtain ⟨hy1, hy2⟩ := randint_mem (knotBoundsY_lt p q oy) (ry j)
    have hx1' : ((knotBoundsX p q ox).1 : ℝ) ≤ (randint (knotBoundsX p q ox).1
        (knotBoundsX p q ox).2 (rx j) : ℝ) := by exact_mod_cast hx1
    have hx2' : (randint (knotBoundsX p q ox).1 (knotBoundsX p q ox).2 (rx j) : ℝ)
        ≤ ((knotBoundsX p q ox).2 : ℝ) := by exact_mod_cast hx2
    have hy1' : ((knotBoundsY p q oy).1 : ℝ) ≤ (randint (knotBoundsY p q oy).1
        (knotBoundsY p q oy).2 (ry j) : ℝ) := by exact_mod_cast hy1
    have hy2' : (randint (knotBoundsY p q oy).1 (knotBoundsY p q oy).2 (ry j) : ℝ)
        ≤ ((knotBoundsY p q oy).2 : ℝ) := by exact_mod_cast hy2
    have hLx : min p.1 q.1 - ox - 1 ≤ ((knotBoundsX p q ox).1 : ℝ) := by
      unfold knotBoundsX
      dsimp only
      have := pyInt_ge_sub_one (min p.1 q.1 - ox)
      linarith
    have hRx : ((knotBoundsX p q ox).2 : ℝ) ≤ max p.1 q.1 + ox + 2 := by
      unfold knotBoundsX
      dsimp only
      split
      · have h1 := pyInt_le_add_one (min p.1 q.1 - ox)
        have h2 : min p.1 q.1 ≤ max p.1 q.1 := min_le_max
        push_cast
        linarith
      · have h1 := pyInt_le_add_one (max p.1 q.1 + ox)
        linarith
    have hLy : min p.2 q.2 - oy - 1 ≤ ((knotBoundsY p q oy).1 : ℝ) := by
      unfold knotBoundsY
      dsimp only
      have := pyInt_ge_sub_one (min p.2 q.2 - oy)
      linarith
    have hRy : ((knotBoundsY p q oy).2 : ℝ) ≤ max p.2 q.2 + oy + 2 := by
      unfold knotBoundsY
      dsimp only
      split
      · have h1 := pyInt_le_add_one (min p.2 q.2 - oy)
        have h2 : min p.2 q.2 ≤ max p.2 q.2 := min_le_max
        push_cast
        linarith
      · have h1 := pyInt_le_add_one (max p.2 q.2 + oy)
        linarith
    exact ⟨hx1', hx2', hy1', hy2', by linarith, by linarith, by linarith, by linarith⟩

theorem knots_in_truncated_bounds_witness :
    (0 : ℝ) ≤ 5 ∧ (0 : ℝ) ≤ 5 ∧
      ((generate_internal_knots ((0 : ℝ), (0 : ℝ)) ((10 : ℝ), (10 : ℝ)) 1 5 5
        (fun _ => 0) (fun _ => 0)).length = 1 ∧
      ((1 : ℕ) = 0 → generate_internal_knots ((0 : ℝ), (0 : ℝ)) ((10 : ℝ), (10 : ℝ)) 1 5 5
        (fun _ => 0) (fun _ => 0) = []) ∧
      ∀ k ∈ generate_internal_knots ((0 : ℝ), (0 : ℝ)) ((10 : ℝ), (10 : ℝ)) 1 5 5
          (fun _ => 0) (fun _ => 0),
        ((knotBoundsX ((0 : ℝ), (0 : ℝ)) ((10 : ℝ), (10 : ℝ)) 5).1 : ℝ) ≤ k.1 ∧
        k.1 ≤ ((knotBoundsX ((0 : ℝ), (0 : ℝ)) ((10 : ℝ), (10 : ℝ)) 5).2 : ℝ) ∧
        ((knotBoundsY ((0 : ℝ), (0 : ℝ)) ((10 : ℝ), (10 : ℝ)) 5).1 : ℝ) ≤ k.2 ∧
        k.2 ≤ ((knotBoundsY ((0 : ℝ), (0 : ℝ)) ((10 : ℝ), (10 : ℝ)) 5).2 : ℝ) ∧
        min (0 : ℝ) 10 - 5 - 1 ≤ k.1 ∧ k.1 ≤ max (0 : ℝ) 10 + 5 + 2 ∧
        min (0 : ℝ) 10 - 5 - 1 ≤ k.2 ∧ k.2 ≤ max (0 : ℝ) 10 + 5 + 2) :=
  ⟨by norm_num, by norm_num,
    knots_in_truncated_bounds ((0 : ℝ), (0 : ℝ)) ((10 : ℝ), (10 : ℝ)) 1 5 5
      (by norm_num) (by norm_num) (fun _ => 0) (fun _ => 0)⟩

/-- C8 counterexample: the double actually produced by `_binomial(23, 2)` —
raw factorial division evaluated in IEEE binary64 — is
`8901646138474497 / 2^45 = 253.00000000000003…`, not the exact binomial
coefficient `C(23, 2) = 253`. -/
theorem binomial_float_inexact :
    binomialFloat 23 2 ≠ ((Nat.choose 23 2 : ℕ) : ℚ) ∧
      Nat.choose 23 2 = 253 ∧
      binomialFPScaled 23 2 = 8901646138474497 * 2 ^ 7 := by
  have hv : binomialFPScaled 23 2 = 8901646138474497 * 2 ^ 7 := by decide
  refine ⟨?_, by decide, hv⟩
  unfold binomialFloat
  rw [hv, show Nat.choose 23 2 = 253 from by decide]
  norm_num

/-- C8 amended: `_binomial` computes the coefficient by raw factorial
division (not a Pascal's-triangle recurrence); in exact arithmetic that
quotient does equal the exact binomial coefficient for every `k ≤ n` (the
loss is purely a floating-point effect, first appearing at degree 23). -/
theorem binomial_eq_choose {n k : ℕ} (h : k ≤ n) :
    binomial n k = ((Nat.choose n k : ℕ) : ℝ) := by
  rw [Nat.cast_choose ℝ h]
  unfold binomial
  push_cast
  ring

theorem binomial_eq_choose_witness :
    2 ≤ 5 ∧ binomial 5 2 = ((Nat.choose 5 2 : ℕ) : ℝ) :=
  ⟨by norm_num, binomial_eq_choose (by norm_num)⟩

end Pydoll
